import Mathlib

/-!
# Verification of the tiered reserve allocation engine (`reserve_manager.py`)

Shallow embedding of the Account/Tier/Plan data model and of the engine
operations (`Tier.allocate_into_accounts`, `Plan.allocation_plan`,
`Plan.allocation_plan_detailed`, `Plan.rebalancing_moves`, `Plan.forecast`,
`Tier.add_or_update_account`) over exact rational arithmetic.

Python's `round(x, 2)` (round-half-to-even at two decimal places) is modelled
by `round2` below.  Python's `float("inf")` remaining room is modelled by an
`Option ℚ` where `none` stands for unbounded room.  Code paths that raise an
exception (the `next(...)` lookup of a preferred account that names no
existing account, which raises `StopIteration`) are modelled with `Option`
results, `none` standing for the raised exception.

The Batteries arithmetic on `Rat` is `@[irreducible]`, which blocks `decide`
on concrete inputs; it is restored to `semireducible` locally so that closed
facts about concrete plans can be checked by `decide`.
-/

set_option allowUnsafeReducibility true
attribute [local semireducible] Rat.mul Rat.add Rat.sub Rat.div Rat.inv

/-- Round-half-to-even to an integer, as Python's builtin `round` does on the
exact value of its argument.  `Rat.floor` is used rather than `Int.floor`
because the former reduces in the kernel; `ratFloor_eq_intFloor` bridges. -/
def rhe (x : ℚ) : ℤ :=
  if x - x.floor < 1/2 then x.floor
  else if 1/2 < x - x.floor then x.floor + 1
  else if 2 ∣ x.floor then x.floor else x.floor + 1

/-- Python's `round(x, 2)`: round-half-to-even at two decimal places. -/
def round2 (x : ℚ) : ℚ := (rhe (100 * x) : ℚ) / 100

theorem ratFloor_eq_intFloor (x : ℚ) : x.floor = ⌊x⌋ := by
  rw [Rat.floor_def', Rat.floor_def]

/-- Computable max on ℚ (the lattice `max` does not reduce in the kernel). -/
def qmax (a b : ℚ) : ℚ := if a ≤ b then b else a

/-- Computable min on ℚ. -/
def qmin (a b : ℚ) : ℚ := if a ≤ b then a else b

@[simp] theorem qmax_eq (a b : ℚ) : qmax a b = max a b := by
  unfold qmax
  split_ifs with h
  · exact (max_eq_right h).symm
  · exact (max_eq_left (le_of_not_le h)).symm

@[simp] theorem qmin_eq (a b : ℚ) : qmin a b = min a b := by
  unfold qmin
  split_ifs with h
  · exact (min_eq_left h).symm
  · exact (min_eq_right (le_of_not_le h)).symm

theorem rhe_le (x : ℚ) : (rhe x : ℚ) ≤ x + 1/2 := by
  have hfl : (⌊x⌋ : ℚ) ≤ x := Int.floor_le x
  have hfl2 : x < ⌊x⌋ + 1 := Int.lt_floor_add_one x
  unfold rhe
  simp only [ratFloor_eq_intFloor]
  split_ifs with h1 h2 h3 <;> push_cast <;> linarith

theorem rhe_ge (x : ℚ) : x - 1/2 ≤ (rhe x : ℚ) := by
  have hfl : (⌊x⌋ : ℚ) ≤ x := Int.floor_le x
  have hfl2 : x < ⌊x⌋ + 1 := Int.lt_floor_add_one x
  unfold rhe
  simp only [ratFloor_eq_intFloor]
  split_ifs with h1 h2 h3 <;> push_cast <;> linarith

theorem floor_le_rhe (x : ℚ) : ⌊x⌋ ≤ rhe x := by
  unfold rhe
  simp only [ratFloor_eq_intFloor]
  split_ifs with h1 h2 h3 <;> omega

theorem rhe_le_floor_add_one (x : ℚ) : rhe x ≤ ⌊x⌋ + 1 := by
  unfold rhe
  simp only [ratFloor_eq_intFloor]
  split_ifs with h1 h2 h3 <;> omega

theorem rhe_mono {x y : ℚ} (h : x ≤ y) : rhe x ≤ rhe y := by
  rcases lt_or_eq_of_le (Int.floor_mono h) with hf | hf
  · have h1 := rhe_le_floor_add_one x
    have h2 := floor_le_rhe y
    omega
  · -- equal floors: compare fractional parts
    unfold rhe
    simp only [ratFloor_eq_intFloor]
    rw [← hf]
    have hfr : x - ⌊x⌋ ≤ y - ⌊x⌋ := by linarith
    split_ifs <;>
      first
        | omega
        | (exfalso; linarith)

theorem round2_le (x : ℚ) : round2 x ≤ x + 1/200 := by
  unfold round2
  have h := rhe_le (100 * x)
  rw [div_le_iff (by norm_num : (0:ℚ) < 100)]
  linarith

theorem round2_ge (x : ℚ) : x - 1/200 ≤ round2 x := by
  unfold round2
  have h := rhe_ge (100 * x)
  rw [le_div_iff (by norm_num : (0:ℚ) < 100)]
  linarith

theorem round2_mono {x y : ℚ} (h : x ≤ y) : round2 x ≤ round2 y := by
  unfold round2
  have := rhe_mono (by linarith : 100 * x ≤ 100 * y)
  have : (rhe (100*x) : ℚ) ≤ (rhe (100*y) : ℚ) := by exact_mod_cast this
  linarith

theorem round2_nonneg {x : ℚ} (h : 0 ≤ x) : 0 ≤ round2 x := by
  unfold round2
  have h1 : (0:ℤ) ≤ ⌊100 * x⌋ := Int.floor_nonneg.mpr (by linarith)
  have h2 := floor_le_rhe (100 * x)
  have : (0:ℚ) ≤ (rhe (100*x) : ℚ) := by exact_mod_cast le_trans h1 h2
  positivity

theorem round2_nonpos {x : ℚ} (h : x ≤ 0) : round2 x ≤ 0 := by
  unfold round2
  have h2 : (rhe (100*x) : ℚ) ≤ 100 * x + 1/2 := rhe_le (100 * x)
  have h3 : (rhe (100*x) : ℚ) ≤ 1/2 := by linarith
  have h4 : rhe (100*x) ≤ 0 := by
    by_contra hc
    push_neg at hc
    have : (1:ℚ) ≤ (rhe (100*x) : ℚ) := by exact_mod_cast hc
    linarith
  have : (rhe (100*x) : ℚ) ≤ 0 := by exact_mod_cast h4
  linarith

theorem round2_pos_ge {x : ℚ} (h : 0 < round2 x) : 1/100 ≤ round2 x := by
  unfold round2 at *
  have h4 : 0 < rhe (100*x) := by
    by_contra hc
    push_neg at hc
    have : (rhe (100*x) : ℚ) ≤ 0 := by exact_mod_cast hc
    have : (rhe (100*x) : ℚ) / 100 ≤ 0 := by
      apply div_nonpos_of_nonpos_of_nonneg this (by norm_num)
    linarith
  have : (1:ℚ) ≤ (rhe (100*x) : ℚ) := by exact_mod_cast h4
  rw [le_div_iff (by norm_num : (0:ℚ) < 100)]
  linarith

/-- Substring containment, as Python's `in` operator on strings. -/
def strContains (s pat : String) : Bool := decide (pat.toList <:+: s.toList)

/- ----------------------------- Data Models ----------------------------- -/

/-- The `Account` dataclass (source lines 36-43). -/
structure Account where
  name : String
  balance : ℚ
  apy_pct : ℚ
  notes : String
  alloc_weight : ℚ
  account_target : Option ℚ
  deriving DecidableEq

/-- Source `Account.expected_growth` (lines 45-49). -/
def Account.expected_growth (a : Account) (months : ℤ) : ℚ :=
  if a.apy_pct ≤ 0 ∨ a.balance ≤ 0 ∨ months ≤ 0 then 0
  else a.balance * ((1 + a.apy_pct / 100 / 12) ^ months.toNat - 1)

/-- Source `Account.remaining_room` (lines 51-55); `none` models
`float("inf")` for an account with no `account_target` cap. -/
def Account.remaining_room (a : Account) : Option ℚ :=
  a.account_target.map (fun c => qmax 0 (c - a.balance))

/-- The test `a.remaining_room > 0`, with `inf > 0` true. -/
def Account.hasRoomB (a : Account) : Bool :=
  match a.remaining_room with
  | none => true
  | some r => decide (0 < r)

/-- Computes `min x a.remaining_room`, with `min x inf = x`. -/
def Account.minRoom (a : Account) (x : ℚ) : ℚ :=
  match a.remaining_room with
  | none => x
  | some r => qmin x r

/-- The `Tier` dataclass (source lines 57-64). -/
structure Tier where
  name : String
  purpose : String
  target : ℚ
  priority : ℤ
  accounts : List Account
  preferred_account : Option String
  deriving DecidableEq

/-- Source `Tier.total` (lines 66-68). -/
def Tier.total (t : Tier) : ℚ := (t.accounts.map Account.balance).sum

/-- Source `Tier.gap` (lines 70-72). -/
def Tier.gap (t : Tier) : ℚ := qmax 0 (t.target - t.total)

/-- The in-place update applied to the first account with a matching name in
`Tier.add_or_update_account` (source lines 76-87): `balance` is always set;
`apy_pct`, `alloc_weight` and `account_target` only when the argument is not
`None`; `notes` only when the supplied string is truthy, i.e. non-empty. -/
def updAccount (a : Account) (balance : ℚ) (apy_pct : Option ℚ) (notes : String)
    (alloc_weight : Option ℚ) (account_target : Option ℚ) : Account :=
  { a with
    balance := balance
    apy_pct := apy_pct.getD a.apy_pct
    notes := if notes = "" then a.notes else notes
    alloc_weight := alloc_weight.getD a.alloc_weight
    account_target :=
      match account_target with
      | none => a.account_target
      | some c => some c }

/-- Update the first account whose name matches; `none` when no name matches
(the `for` loop in `add_or_update_account` falls through). -/
def updFirst (accs : List Account) (name : String) (balance : ℚ) (apy : Option ℚ)
    (notes : String) (w : Option ℚ) (cap : Option ℚ) : Option (List Account) :=
  match accs with
  | [] => none
  | a :: rest =>
    if a.name = name then some (updAccount a balance apy notes w cap :: rest)
    else (updFirst rest name balance apy notes w cap).map (a :: ·)

/-- Source `Tier.add_or_update_account` (lines 74-89).  In the append branch
Python evaluates `apy_pct or 0.0` and `alloc_weight or 1.0`: by truthiness a
supplied value of `0.0` (not only `None`) falls back to the default. -/
def Tier.add_or_update_account (t : Tier) (name : String) (balance : ℚ)
    (apy_pct : Option ℚ) (notes : String) (alloc_weight : Option ℚ)
    (account_target : Option ℚ) : Tier :=
  match updFirst t.accounts name balance apy_pct notes alloc_weight account_target with
  | some accs => { t with accounts := accs }
  | none =>
    { t with accounts := t.accounts ++
      [{ name := name, balance := balance,
         apy_pct := apy_pct.getD 0,
         notes := notes,
         alloc_weight :=
           match alloc_weight with
           | none => 1
           | some w => if w = 0 then 1 else w,
         account_target := account_target }] }

/-- The `Plan` dataclass (source lines 146-149). -/
structure Plan where
  tiers : List Tier
  last_updated : String
  deriving DecidableEq

/-- Source `Plan.total_reserves` (lines 160-162). -/
def Plan.total_reserves (p : Plan) : ℚ := (p.tiers.map Tier.total).sum

/-- Stable insertion of a tier into a priority-sorted list: placed before the
first tier that does not have strictly smaller priority. -/
def insertByPriority (t : Tier) : List Tier → List Tier
  | [] => [t]
  | u :: us => if u.priority < t.priority then u :: insertByPriority t us else t :: u :: us

/-- Source `Plan.sorted_by_priority` (lines 164-165): stable sort by ascending
priority.  Python's `sorted` is stable and stable sorting is extensionally
unique, so this insertion sort computes the same list. -/
def Plan.sorted_by_priority (p : Plan) : List Tier :=
  p.tiers.foldr insertByPriority []

/- ------------------- Tier.allocate_into_accounts ------------------- -/

/-- One step of the inner `for a in candidates` loop of
`Tier.allocate_into_accounts` (source lines 134-141).  The state is
`(remaining, appended moves, progressed)`; note that `share` is computed from
the *running* value of `remaining`, which is decremented inside the loop by
the already-rounded `add`. -/
def shareAdd (W r : ℚ) (a : Account) : ℚ :=
  round2 (a.minRoom (r * (qmax 0 a.alloc_weight / W)))

def passStep (W : ℚ) (s : ℚ × List (String × ℚ) × Bool) (a : Account) :
    ℚ × List (String × ℚ) × Bool :=
  if 0 < shareAdd W s.1 a then
    (s.1 - shareAdd W s.1 a, s.2.1 ++ [(a.name, shareAdd W s.1 a)], true)
  else s

/-- The list `candidates = [a for a in self.accounts if a.remaining_room > 0]`
(source line 123).  Account balances are never written during allocation, so
the candidate list is the same on every pass. -/
def candidatesOf (t : Tier) : List Account := t.accounts.filter Account.hasRoomB

/-- The sum `total_w = sum(max(0.0, a.alloc_weight) for a in candidates)` (line 126). -/
def totalWeight (cands : List Account) : ℚ :=
  (cands.map (fun a => qmax 0 a.alloc_weight)).sum

/-- One full pass of the `for a in candidates` loop, starting from remaining
`r` with nothing yet appended in this pass. -/
def passState (t : Tier) (r : ℚ) : ℚ × List (String × ℚ) × Bool :=
  (candidatesOf t).foldl (passStep (totalWeight (candidatesOf t))) (r, [], false)

/-- Fuel-indexed form of the `while remaining > 0` distribution loop (source
lines 122-143); `none` means the fuel ran out.  `distLoopF_isSome` below shows
that `distFuel` is always enough fuel, so `distLoop` is a faithful model of
the terminating Python loop. -/
def distLoopF (t : Tier) : ℕ → ℚ → Option (List (String × ℚ))
  | 0, _ => none
  | n+1, remaining =>
    if remaining ≤ 0 then some []
    else
      match candidatesOf t with
      | [] => some []
      | a :: _ =>
        if totalWeight (candidatesOf t) ≤ 0 then
          some [(a.name, round2 (a.minRoom remaining))]
        else
          if (passState t remaining).2.2 then
            (distLoopF t n (passState t remaining).1).map
              (fun ms => (passState t remaining).2.1 ++ ms)
          else some (passState t remaining).2.1

/-- Sufficient fuel for `distLoopF` starting from `remaining = r`. -/
def distFuel (r : ℚ) : ℕ := (100 * r).floor.toNat + 2

theorem passStep_fst_le (W : ℚ) (s : ℚ × List (String × ℚ) × Bool) (a : Account) :
    (passStep W s a).1 ≤ s.1 := by
  by_cases h : 0 < shareAdd W s.1 a
  · simp only [passStep, if_pos h]
    linarith
  · simp only [passStep, if_neg h]
    exact le_refl _

theorem passStep_progress (W : ℚ) (s : ℚ × List (String × ℚ) × Bool) (a : Account)
    (h0 : s.2.2 = false) (h1 : (passStep W s a).2.2 = true) :
    (passStep W s a).1 ≤ s.1 - 1/100 := by
  by_cases h : 0 < shareAdd W s.1 a
  · simp only [passStep, if_pos h]
    have hge : 1/100 ≤ shareAdd W s.1 a := by
      unfold shareAdd at h ⊢; exact round2_pos_ge h
    linarith
  · simp only [passStep, if_neg h] at h1
    rw [h0] at h1
    simp at h1

theorem passStep_stay (W : ℚ) (s : ℚ × List (String × ℚ) × Bool) (a : Account)
    (h1 : (passStep W s a).2.2 = false) : passStep W s a = s := by
  by_cases h : 0 < shareAdd W s.1 a
  · simp only [passStep, if_pos h] at h1
    exact absurd h1 (by simp)
  · simp only [passStep, if_neg h]

theorem passFold_fst_le (W : ℚ) (l : List Account) :
    ∀ s : ℚ × List (String × ℚ) × Bool, (l.foldl (passStep W) s).1 ≤ s.1 := by
  induction l with
  | nil => intro s; exact le_refl _
  | cons a l ih =>
    intro s
    calc (l.foldl (passStep W) (passStep W s a)).1
        ≤ (passStep W s a).1 := ih _
      _ ≤ s.1 := passStep_fst_le W s a

theorem passFold_progress (W : ℚ) (l : List Account) :
    ∀ s : ℚ × List (String × ℚ) × Bool, s.2.2 = false →
      (l.foldl (passStep W) s).2.2 = true →
      (l.foldl (passStep W) s).1 ≤ s.1 - 1/100 := by
  induction l with
  | nil => intro s h0 h1; rw [List.foldl_nil] at h1; rw [h0] at h1; simp at h1
  | cons a l ih =>
    intro s h0 h1
    rw [List.foldl_cons] at h1 ⊢
    by_cases hp : (passStep W s a).2.2
    · calc (l.foldl (passStep W) (passStep W s a)).1
          ≤ (passStep W s a).1 := passFold_fst_le W l _
        _ ≤ s.1 - 1/100 := passStep_progress W s a h0 hp
    · rw [passStep_stay W s a (by simpa using hp)] at h1 ⊢
      exact ih s h0 h1

theorem passState_progress (t : Tier) (r : ℚ) (hp : (passState t r).2.2 = true) :
    (passState t r).1 ≤ r - 1/100 :=
  passFold_progress (totalWeight (candidatesOf t)) (candidatesOf t) (r, [], false) rfl hp

theorem distLoopF_isSome (t : Tier) :
    ∀ n r, (⌈100 * r⌉).toNat < n → (distLoopF t n r).isSome := by
  intro n
  induction n with
  | zero => intro r h; omega
  | succ n ih =>
    intro r h
    unfold distLoopF
    by_cases hr : r ≤ 0
    · simp [hr]
    · rw [if_neg hr]
      push_neg at hr
      split
      · rfl
      · by_cases hW : totalWeight (candidatesOf t) ≤ 0
        · rw [if_pos hW]; rfl
        · rw [if_neg hW]
          by_cases hp : (passState t r).2.2
          · rw [if_pos hp]
            have hle := passState_progress t r hp
            have h1 : (0:ℚ) < 100 * r := by linarith
            have h2 : 0 < ⌈100 * r⌉ := Int.ceil_pos.mpr h1
            have h3 : 100 * (passState t r).1 ≤ 100 * r - 1 := by linarith
            have h4 : ⌈100 * (passState t r).1⌉ ≤ ⌈(100 * r : ℚ) - 1⌉ := Int.ceil_mono h3
            have h5 : ⌈(100 * r : ℚ) - 1⌉ = ⌈(100 * r : ℚ)⌉ - 1 := by
              have := Int.ceil_sub_int (100 * r : ℚ) 1
              push_cast at this
              exact this
            have hin : (distLoopF t n (passState t r).1).isSome := ih _ (by omega)
            rcases Option.isSome_iff_exists.mp hin with ⟨v, hv⟩
            rw [hv]
            rfl
          · rw [if_neg hp]
            rfl


/-- The distribution loop run with its (always sufficient) fuel. -/
def distLoop (t : Tier) (r : ℚ) : List (String × ℚ) :=
  (distLoopF t (distFuel r) r).getD []

theorem distLoopF_distFuel (t : Tier) (r : ℚ) :
    distLoopF t (distFuel r) r = some (distLoop t r) := by
  have hb : ⌈(100 * r : ℚ)⌉ ≤ ⌊(100 * r : ℚ)⌋ + 1 := Int.ceil_le_floor_add_one _
  have hf : (100 * r).floor = ⌊(100 * r : ℚ)⌋ := ratFloor_eq_intFloor _
  have h := distLoopF_isSome t (distFuel r) r (by unfold distFuel; omega)
  rcases Option.isSome_iff_exists.mp h with ⟨v, hv⟩
  rw [distLoop, hv]
  rfl

/-- The lookup `next(a for a in self.accounts if a.name == self.preferred_account)`
guarded by the truthiness test `if self.preferred_account:` (source lines
112-113).  `none` = the lookup raises `StopIteration`; `some none` = the
preferred step is skipped (unset or empty name); `some (some pa)` = found. -/
def prefLookup (t : Tier) : Option (Option Account) :=
  match t.preferred_account with
  | none => some none
  | some s =>
    if s = "" then some none
    else
      match t.accounts.find? (fun a => a.name == s) with
      | none => none
      | some pa => some (some pa)

/-- Preferred-account step (source lines 112-119) followed by the
distribution loop.  The preferred step records `round2 add` in the move list
but subtracts the *unrounded* `add` from `remaining`. -/
def allocFrom (t : Tier) (pa? : Option Account) (remaining : ℚ) : List (String × ℚ) :=
  match pa? with
  | none => distLoop t remaining
  | some pa =>
    if pa.hasRoomB then
      if 0 < pa.minRoom remaining then
        (pa.name, round2 (pa.minRoom remaining)) ::
          distLoop t (remaining - pa.minRoom remaining)
      else distLoop t remaining
    else distLoop t remaining

/-- Source `Tier.allocate_into_accounts` (lines 99-144); `none` models the
`StopIteration` escaping when `preferred_account` names no account. -/
def Tier.allocate_into_accounts (t : Tier) (amount : ℚ) : Option (List (String × ℚ)) :=
  if qmax 0 amount ≤ 0 ∨ t.accounts = [] then some []
  else (prefLookup t).map (fun pa? => allocFrom t pa? (qmax 0 amount))

example :
    Tier.allocate_into_accounts
      { name := "T", purpose := "", target := 10, priority := 1,
        accounts := [{ name := "a", balance := 0, apy_pct := 0, notes := "",
                       alloc_weight := 1, account_target := none }],
        preferred_account := none } (1/125) = some [("a", 1/100)] := by decide

/- ------------------- Plan-level operations ------------------- -/

/-- The tier-gap waterfall of `Plan.allocation_plan` (source lines 169-180):
walk tiers in priority order, assigning `min(remaining, gap)` (recorded
rounded, subtracted unrounded); returns the moves and the final remaining. -/
def wfMoves : List Tier → ℚ → (List (String × ℚ) × ℚ)
  | [], rem => ([], rem)
  | t :: ts, rem =>
    if rem ≤ 0 then ([], rem)
    else if t.gap ≤ 0 then wfMoves ts rem
    else
      if 0 < qmin rem t.gap then
        ((t.name, round2 (qmin rem t.gap)) :: (wfMoves ts (rem - qmin rem t.gap)).1,
         (wfMoves ts (rem - qmin rem t.gap)).2)
      else wfMoves ts rem

/-- The growth-tier heuristic `"Tier 4" in t.name or "Growth" in t.purpose`
(source line 182). -/
def isGrowth (t : Tier) : Bool :=
  strContains t.name "Tier 4" || strContains t.purpose "Growth"

/-- The lookup `next((t for t in self.sorted_by_priority() if ...), None)` (line 182). -/
def growthOf (p : Plan) : Option Tier := p.sorted_by_priority.find? isGrowth

/-- Source `Plan.allocation_plan` (lines 167-185). -/
def Plan.allocation_plan (p : Plan) (new_cash : ℚ) : List (String × ℚ) :=
  (wfMoves p.sorted_by_priority (qmax 0 new_cash)).1 ++
    (if 0 < (wfMoves p.sorted_by_priority (qmax 0 new_cash)).2 then
      match growthOf p with
      | some g => [(g.name, round2 (wfMoves p.sorted_by_priority (qmax 0 new_cash)).2)]
      | none => []
    else [])

/-- Per-tier block of `Plan.allocation_plan_detailed` (source lines 199-205):
split `amt` into accounts, fall back to the first account when the split is
empty, tag each move with the tier name and re-round. -/
def tierChunk (t : Tier) (amt : ℚ) : Option (List (String × String × ℚ)) :=
  (t.allocate_into_accounts amt).map (fun splits =>
    (if splits = [] then
      (match t.accounts with
       | [] => []
       | a :: _ => [(a.name, round2 amt)])
     else splits).map (fun m => (t.name, m.1, round2 m.2)))

/-- The waterfall of `Plan.allocation_plan_detailed` (source lines 189-206).
`none` models the `StopIteration` escaping from `allocate_into_accounts`. -/
def dwMoves : List Tier → ℚ → Option (List (String × String × ℚ) × ℚ)
  | [], rem => some ([], rem)
  | t :: ts, rem =>
    if rem ≤ 0 then some ([], rem)
    else if t.gap ≤ 0 then dwMoves ts rem
    else
      if 0 < qmin rem t.gap then
        match tierChunk t (qmin rem t.gap), dwMoves ts (rem - qmin rem t.gap) with
        | some ms, some (rest, rem2) => some (ms ++ rest, rem2)
        | _, _ => none
      else dwMoves ts rem

/-- Source `Plan.allocation_plan_detailed` (lines 187-216); the leftover block
(source lines 207-215) is the same per-tier block applied to the growth tier. -/
def Plan.allocation_plan_detailed (p : Plan) (new_cash : ℚ) :
    Option (List (String × String × ℚ)) :=
  match dwMoves p.sorted_by_priority (qmax 0 new_cash) with
  | none => none
  | some (ms, rem) =>
    if 0 < rem then
      match growthOf p with
      | some g => (tierChunk g rem).map (fun gs => ms ++ gs)
      | none => some ms
    else some ms

/- ------------------- Plan.rebalancing_moves ------------------- -/

/-- The list `under = [(t, t.gap) for t in self.sorted_by_priority() if t.gap > 0]`
(source line 219); only the tier names are used downstream. -/
def underList (p : Plan) : List (String × ℚ) :=
  (p.sorted_by_priority.filter (fun t => decide (0 < t.gap))).map
    (fun t => (t.name, t.gap))

/-- The list `over = [(t, t.total - t.target) for t in self.tiers if t.total > t.target]`
(source line 220) — in plan order, not priority order. -/
def overList (p : Plan) : List (String × ℚ) :=
  (p.tiers.filter (fun t => decide (t.target < t.total))).map
    (fun t => (t.name, t.total - t.target))

/-- The transfer `amt = round(min(excess, need), 2)` (source line 228). -/
def rebAmt (exc need : ℚ) : ℚ := round2 (qmin exc need)

/-- The recorded move (source lines 229-230); empty when `amt ≤ 0`. -/
def rebMv (fn tn : String) (exc need : ℚ) : List (String × ℚ) :=
  if 0 < rebAmt exc need then [(fn ++ " ➜ " ++ tn, rebAmt exc need)] else []

/-- After a transfer, at least one of the two residuals is within the 0.005
advance tolerance, so the Python `while` loop advances a cursor every
iteration. -/
theorem rebalance_dichotomy (exc need : ℚ) :
    exc - rebAmt exc need ≤ 1/200 ∨ need - rebAmt exc need ≤ 1/200 := by
  unfold rebAmt
  rcases le_total exc need with h | h
  · left
    have h1 : qmin exc need = exc := by rw [qmin_eq, min_eq_left h]
    rw [h1]
    have := round2_ge exc
    linarith
  · right
    have h1 : qmin exc need = need := by rw [qmin_eq, min_eq_right h]
    rw [h1]
    have := round2_ge need
    linarith

/-- The cursor walk of `Plan.rebalancing_moves` (source lines 224-238),
written on the suffixes of `over`/`under` that the cursors point into.  In
the last branch the Python loop advances only the under cursor; by
`rebalance_dichotomy` that is exactly the situation there. -/
def rebLoop : List (String × ℚ) → List (String × ℚ) → List (String × ℚ)
  | [], _ => []
  | _ :: _, [] => []
  | (fn, exc) :: ovs, (tn, need) :: uns =>
    if exc - rebAmt exc need ≤ 1/200 then
      if need - rebAmt exc need ≤ 1/200 then
        rebMv fn tn exc need ++ rebLoop ovs uns
      else
        rebMv fn tn exc need ++ rebLoop ovs ((tn, need - rebAmt exc need) :: uns)
    else
      rebMv fn tn exc need ++ rebLoop ((fn, exc - rebAmt exc need) :: ovs) uns
termination_by ov un => ov.length + un.length
decreasing_by
  all_goals simp only [List.length_cons]
  all_goals omega

/-- Source `Plan.rebalancing_moves` (lines 218-239). -/
def Plan.rebalancing_moves (p : Plan) : List (String × ℚ) :=
  if underList p = [] ∨ overList p = [] then []
  else rebLoop (overList p) (underList p)

/-- Source `Plan.forecast` (lines 241-242): an association list in tier
order, one entry per tier (Python builds a dict keyed by tier name). -/
def Plan.forecast (p : Plan) (months : ℤ) : List (String × ℚ) :=
  p.tiers.map (fun t =>
    (t.name, (t.accounts.map (fun a => a.expected_growth months)).sum))

example :
    Plan.allocation_plan
      { tiers := [
          { name := "A", purpose := "", target := 100, priority := 1,
            accounts := [], preferred_account := none },
          { name := "B", purpose := "", target := 50, priority := 2,
            accounts := [], preferred_account := none }],
        last_updated := "" } 120 = [("A", 100), ("B", 20)] := by decide

/- ------------------- no-exception / termination machinery ------------------- -/

/-- The preferred-account reference is absent, empty, or names an existing
account — exactly when the `next(...)` lookup cannot raise. -/
def validPref (t : Tier) : Bool := (prefLookup t).isSome

theorem allocate_isSome_of_validPref (t : Tier) (amount : ℚ)
    (h : validPref t = true) : (t.allocate_into_accounts amount).isSome = true := by
  unfold validPref at h
  rcases Option.isSome_iff_exists.mp h with ⟨pa?, hpa⟩
  unfold Tier.allocate_into_accounts
  split_ifs with h1
  · rfl
  · rw [hpa]
    rfl

/- ------------------- sum bounds for the distribution loop ------------------- -/

theorem passStep_sum (W : ℚ) (s : ℚ × List (String × ℚ) × Bool) (a : Account) :
    (passStep W s a).1 + ((passStep W s a).2.1.map Prod.snd).sum
      = s.1 + (s.2.1.map Prod.snd).sum := by
  by_cases h : 0 < shareAdd W s.1 a
  · simp only [passStep, if_pos h, List.map_append, List.sum_append,
      List.map_cons, List.map_nil, List.sum_cons, List.sum_nil]
    ring
  · simp only [passStep, if_neg h]

theorem passFold_sum (W : ℚ) (l : List Account) :
    ∀ s : ℚ × List (String × ℚ) × Bool,
      (l.foldl (passStep W) s).1 + ((l.foldl (passStep W) s).2.1.map Prod.snd).sum
        = s.1 + (s.2.1.map Prod.snd).sum := by
  induction l with
  | nil => intro s; rfl
  | cons a l ih =>
    intro s
    rw [List.foldl_cons, ih (passStep W s a), passStep_sum]

theorem weight_le_totalWeight (l : List Account) (a : Account) (ha : a ∈ l) :
    qmax 0 a.alloc_weight ≤ totalWeight l := by
  unfold totalWeight
  have h0 : ∀ b ∈ l.map (fun a => qmax 0 a.alloc_weight), 0 ≤ b := by
    intro b hb
    rcases List.mem_map.mp hb with ⟨c, _, rfl⟩
    rw [qmax_eq]
    exact le_max_left 0 _
  exact List.single_le_sum h0 _ (List.mem_map.mpr ⟨a, ha, rfl⟩)

theorem minRoom_le (a : Account) (x : ℚ) : a.minRoom x ≤ x := by
  unfold Account.minRoom
  cases a.remaining_room with
  | none => exact le_refl x
  | some r =>
    show qmin x r ≤ x
    unfold qmin
    split_ifs with h
    · exact le_refl x
    · exact le_of_not_le h

theorem shareAdd_le (W : ℚ) (r : ℚ) (a : Account) (hW : 0 < W)
    (hw : qmax 0 a.alloc_weight ≤ W) (hpos : 0 < shareAdd W r a) :
    shareAdd W r a ≤ r + 1/200 := by
  have hc0 : 0 ≤ qmax 0 a.alloc_weight / W := by
    apply div_nonneg _ (le_of_lt hW)
    rw [qmax_eq]; exact le_max_left 0 _
  have hc1 : qmax 0 a.alloc_weight / W ≤ 1 := by
    rw [div_le_one hW]; exact hw
  have hr0 : 0 < r := by
    by_contra hc
    push_neg at hc
    have hs0 : r * (qmax 0 a.alloc_weight / W) ≤ 0 :=
      mul_nonpos_of_nonpos_of_nonneg hc hc0
    have h2 : shareAdd W r a ≤ 0 := by
      unfold shareAdd
      exact round2_nonpos (le_trans (minRoom_le a _) hs0)
    linarith
  have hshare : r * (qmax 0 a.alloc_weight / W) ≤ r :=
    mul_le_of_le_one_right (le_of_lt hr0) hc1
  have h3 := minRoom_le a (r * (qmax 0 a.alloc_weight / W))
  have h4 := round2_le (a.minRoom (r * (qmax 0 a.alloc_weight / W)))
  unfold shareAdd
  linarith

theorem passStep_lb (W : ℚ) (s : ℚ × List (String × ℚ) × Bool) (a : Account)
    (hW : 0 < W) (hw : qmax 0 a.alloc_weight ≤ W) (hs : -(1/200) ≤ s.1) :
    -(1/200) ≤ (passStep W s a).1 := by
  by_cases h : 0 < shareAdd W s.1 a
  · simp only [passStep, if_pos h]
    have := shareAdd_le W s.1 a hW hw h
    linarith
  · simp only [passStep, if_neg h]
    exact hs

theorem passFold_lb (W : ℚ) (l : List Account) (hW : 0 < W)
    (hw : ∀ a ∈ l, qmax 0 a.alloc_weight ≤ W) :
    ∀ s : ℚ × List (String × ℚ) × Bool, -(1/200) ≤ s.1 →
      -(1/200) ≤ (l.foldl (passStep W) s).1 := by
  induction l with
  | nil => intro s hs; exact hs
  | cons a l ih =>
    intro s hs
    rw [List.foldl_cons]
    exact ih (fun b hb => hw b (List.mem_cons_of_mem a hb)) _
      (passStep_lb W s a hW (hw a (List.mem_cons_self a l)) hs)

theorem passState_lb (t : Tier) (r : ℚ) (hr : 0 < r)
    (hW : 0 < totalWeight (candidatesOf t)) : -(1/200) ≤ (passState t r).1 := by
  unfold passState
  exact passFold_lb _ _ hW (fun a ha => weight_le_totalWeight _ a ha) _ (by linarith)

theorem passState_sum (t : Tier) (r : ℚ) :
    ((passState t r).2.1.map Prod.snd).sum = r - (passState t r).1 := by
  have h := passFold_sum (totalWeight (candidatesOf t)) (candidatesOf t) (r, [], false)
  unfold passState
  simp only [List.map_nil, List.sum_nil] at h
  linarith [h]

theorem distLoopF_nonpos_eq (t : Tier) (n : ℕ) (r : ℚ) (ms : List (String × ℚ))
    (h : distLoopF t n r = some ms) (hr : r ≤ 0) : ms = [] := by
  cases n with
  | zero => exact absurd h (by unfold distLoopF; simp)
  | succ n =>
    unfold distLoopF at h
    rw [if_pos hr] at h
    exact (Option.some_injective _ h).symm

theorem distLoopF_sum_le (t : Tier) :
    ∀ n r ms, distLoopF t n r = some ms →
      ((ms.map Prod.snd).sum) ≤ max r 0 + 1/200 := by
  intro n
  induction n with
  | zero => intro r ms h; exact absurd h (by unfold distLoopF; simp)
  | succ n ih =>
    intro r ms h
    unfold distLoopF at h
    by_cases hr : r ≤ 0
    · rw [if_pos hr] at h
      rw [← Option.some_injective _ h]
      simp only [List.map_nil, List.sum_nil]
      positivity
    · rw [if_neg hr] at h
      push_neg at hr
      have hmax : max r 0 = r := max_eq_left (le_of_lt hr)
      split at h
      · rw [← Option.some_injective _ h]
        simp only [List.map_nil, List.sum_nil]
        positivity
      · rename_i a rest hcand
        split_ifs at h with hW hp
        · rw [← Option.some_injective _ h]
          simp only [List.map_cons, List.map_nil, List.sum_cons, List.sum_nil, add_zero]
          calc round2 (a.minRoom r) ≤ a.minRoom r + 1/200 := round2_le _
            _ ≤ r + 1/200 := by linarith [minRoom_le a r]
            _ = max r 0 + 1/200 := by rw [hmax]
        · push_neg at hW
          have hlb : -(1/200) ≤ (passState t r).1 := passState_lb t r hr hW
          have hsum := passState_sum t r
          rcases Option.map_eq_some'.mp h with ⟨tail, htail, rfl⟩
          rw [List.map_append, List.sum_append, hsum]
          by_cases hql : (passState t r).1 ≤ 0
          · rw [distLoopF_nonpos_eq t n _ tail htail hql]
            simp only [List.map_nil, List.sum_nil, add_zero]
            rw [hmax]
            linarith
          · have hihs := ih _ _ htail
            push_neg at hql
            rw [max_eq_left (le_of_lt hql)] at hihs
            rw [hmax]
            linarith
        · push_neg at hW
          have hlb : -(1/200) ≤ (passState t r).1 := passState_lb t r hr hW
          have hsum := passState_sum t r
          rw [← Option.some_injective _ h, hsum, hmax]
          linarith

theorem distLoop_sum_le (t : Tier) (r : ℚ) :
    (((distLoop t r).map Prod.snd).sum) ≤ max r 0 + 1/200 :=
  distLoopF_sum_le t (distFuel r) r (distLoop t r) (distLoopF_distFuel t r)

/-- Sum bound for `allocate_into_accounts`: at most the (clamped) input plus
one cent of rounding slack. -/
theorem alloc_sum_le (t : Tier) (A : ℚ) (ms : List (String × ℚ))
    (h : t.allocate_into_accounts A = some ms) :
    ((ms.map Prod.snd).sum) ≤ qmax 0 A + 1/100 := by
  unfold Tier.allocate_into_accounts at h
  have hq0 : (0:ℚ) ≤ qmax 0 A := by rw [qmax_eq]; exact le_max_left 0 A
  split_ifs at h with h1
  · rw [← Option.some_injective _ h]
    simp only [List.map_nil, List.sum_nil]
    linarith
  · rcases Option.map_eq_some'.mp h with ⟨pa?, hpa, rfl⟩
    push_neg at h1
    have hrpos : 0 < qmax 0 A := h1.1
    cases pa? with
    | none =>
      simp only [allocFrom]
      have := distLoop_sum_le t (qmax 0 A)
      rw [max_eq_left (le_of_lt hrpos)] at this
      linarith
    | some pa =>
      simp only [allocFrom]
      split_ifs with h2 h3
      · simp only [List.map_cons, List.sum_cons]
        have hd := distLoop_sum_le t (qmax 0 A - pa.minRoom (qmax 0 A))
        have hmr : pa.minRoom (qmax 0 A) ≤ qmax 0 A := minRoom_le pa _
        rw [max_eq_left (by linarith)] at hd
        have hround := round2_le (pa.minRoom (qmax 0 A))
        linarith
      · have := distLoop_sum_le t (qmax 0 A)
        rw [max_eq_left (le_of_lt hrpos)] at this
        linarith
      · have := distLoop_sum_le t (qmax 0 A)
        rw [max_eq_left (le_of_lt hrpos)] at this
        linarith

/- ------------------- concrete fixtures ------------------- -/

def acctSimple : Account :=
  { name := "a", balance := 0, apy_pct := 0, notes := "", alloc_weight := 1,
    account_target := none }

def tierSingle : Tier :=
  { name := "T", purpose := "", target := 10, priority := 1,
    accounts := [acctSimple], preferred_account := none }

def tierGhostPref : Tier :=
  { name := "T", purpose := "", target := 10, priority := 1,
    accounts := [acctSimple], preferred_account := some "ghost" }

def acctZeroW : Account :=
  { name := "z", balance := 5, apy_pct := 0, notes := "", alloc_weight := 0,
    account_target := some 2 }

def tierDegenerate : Tier :=
  { name := "D", purpose := "", target := 10, priority := 1,
    accounts := [acctZeroW], preferred_account := some "z" }

def pAcct : Account :=
  { name := "p", balance := 0, apy_pct := 0, notes := "", alloc_weight := 0,
    account_target := some (7/1000) }

def qAcct : Account :=
  { name := "q", balance := 0, apy_pct := 0, notes := "", alloc_weight := 1,
    account_target := none }

def T3cex : Tier :=
  { name := "T3", purpose := "", target := 100, priority := 1,
    accounts := [pAcct, qAcct], preferred_account := some "p" }

/- ------------------- C2 ------------------- -/

/-- Variant of `allocFrom` following the spec sentence "every individual
assigned amount is rounded to 2 decimals before being subtracted from the
remaining pool": the preferred step subtracts the rounded amount.  The
distribution loop already subtracts rounded amounts, so only that one line
differs from `allocFrom`. -/
def allocFromRSub (t : Tier) (pa? : Option Account) (remaining : ℚ) : List (String × ℚ) :=
  match pa? with
  | none => distLoop t remaining
  | some pa =>
    if pa.hasRoomB then
      if 0 < pa.minRoom remaining then
        (pa.name, round2 (pa.minRoom remaining)) ::
          distLoop t (remaining - round2 (pa.minRoom remaining))
      else distLoop t remaining
    else distLoop t remaining

/-- Modelled from the spec (rounding-policy sentence of section 4.1): the whole
allocator with round-before-subtract in the preferred step, for comparison
with the source `Tier.allocate_into_accounts`. -/
def Tier.allocate_into_accounts_rsub (t : Tier) (amount : ℚ) :
    Option (List (String × ℚ)) :=
  if qmax 0 amount ≤ 0 ∨ t.accounts = [] then some []
  else (prefLookup t).map (fun pa? => allocFromRSub t pa? (qmax 0 amount))

/-- C2, counterexample: on a tier with a single uncapped weight-1 account,
amount 0.008 makes the allocator return one move of 0.01, whose sum exceeds
the input amount (rounding-up at the 2-decimal step), refuting
`Σ assigned ≤ amount`; and amount 0.004 returns no moves at all even though
the account's room is unbounded, refuting the equality clause. -/
theorem C2_counterexample :
    (tierSingle.allocate_into_accounts (1/125) = some [("a", 1/100)] ∧
      ¬ ((([("a", (1:ℚ)/100)]).map Prod.snd).sum ≤ 1/125)) ∧
    (tierSingle.allocate_into_accounts (1/250) = some [] ∧
      acctSimple.account_target = none ∧
      (([] : List (String × ℚ)).map Prod.snd).sum ≠ 1/250) := by decide

/-- C2 (amended): for every tier and non-negative amount `A`, when
`allocate_into_accounts` returns a list (no dangling preferred reference),
the sum of the assigned amounts is at most `A + 0.01`: one cent of rounding
slack (preferred step plus loop) replaces the claimed exact bound, and the
equality clause is dropped — sub-cent inputs can be rounded up or left
unassigned even when room remains. -/
theorem C2_alloc_sum_bound (t : Tier) (A : ℚ) (ms : List (String × ℚ))
    (hA : 0 ≤ A) (h : t.allocate_into_accounts A = some ms) :
    ((ms.map Prod.snd).sum) ≤ A + 1/100 := by
  have hb := alloc_sum_le t A ms h
  have hq : qmax 0 A = A := by rw [qmax_eq]; exact max_eq_right hA
  rw [hq] at hb
  exact hb

/-- C2, witness for the amended bound at a concrete tier and amount. -/
theorem C2_witness :
    (0:ℚ) ≤ 3 ∧ tierSingle.allocate_into_accounts 3 = some [("a", 3)] ∧
    ((([("a", (3:ℚ))]).map Prod.snd).sum) ≤ 3 + 1/100 :=
  ⟨by decide, by decide, C2_alloc_sum_bound tierSingle 3 [("a", 3)] (by decide) (by decide)⟩

/- ------------------- C8 ------------------- -/

/-- C8, counterexample: a preferred-account name that matches no account makes
`allocate_into_accounts` raise `StopIteration` (modelled by `none`), so the
claim "never raising an exception, even when preferred_account names no
existing account" fails. -/
theorem C8_counterexample :
    tierGhostPref.allocate_into_accounts 5 = none := by decide

/-- C8 (amended): for every tier whose `preferred_account` is unset, empty, or
names an existing account, and *every* amount — including tiers with no
accounts, no room anywhere, all-zero weights, or non-positive amounts —
`allocate_into_accounts` terminates with a (possibly short or empty) list and
never raises.  The dangling-preferred case is excluded: there the code raises
`StopIteration`. -/
theorem C8_alloc_total (t : Tier) (A : ℚ) (h : validPref t = true) :
    (t.allocate_into_accounts A).isSome = true :=
  allocate_isSome_of_validPref t A h

/-- C8, witness: a degenerate tier (sole account over its cap with zero
weight, valid preferred reference) still yields a result. -/
theorem C8_witness :
    validPref tierDegenerate = true ∧
    (tierDegenerate.allocate_into_accounts 7).isSome = true :=
  ⟨by decide, C8_alloc_total tierDegenerate 7 (by decide)⟩

/- ------------------- C3 ------------------- -/

theorem allocFrom_some (t : Tier) (pa : Account) (r : ℚ) :
    allocFrom t (some pa) r =
      if pa.hasRoomB then
        if 0 < pa.minRoom r then
          (pa.name, round2 (pa.minRoom r)) :: distLoop t (r - pa.minRoom r)
        else distLoop t r
      else distLoop t r := rfl

/-- C3, counterexample: with preferred account `p` (cap 0.007, weight 0) and a
second uncapped account `q`, amount 0.023: the source subtracts the unrounded
preferred assignment 0.007 (recording 0.01) and then assigns `q` 0.02, while
the claimed round-before-subtract policy would leave 0.013 and assign `q`
0.01 — the outputs differ, refuting the claim that every assigned amount
(including the preferred one) is rounded before subtraction. -/
theorem C3_counterexample :
    Tier.allocate_into_accounts T3cex (23/1000) = some [("p", 1/100), ("q", 1/50)] ∧
    Tier.allocate_into_accounts_rsub T3cex (23/1000) = some [("p", 1/100), ("q", 1/100)] ∧
    Tier.allocate_into_accounts T3cex (23/1000) ≠
      Tier.allocate_into_accounts_rsub T3cex (23/1000) := by decide

/-- C3 (amended): in the distribution loop every assigned amount is rounded to
2 decimals before being subtracted — each loop step changes the remaining
pool by exactly the sum of the (rounded) amounts it appends — but the initial
preferred-account assignment records `round2 add` while subtracting the
*unrounded* `add = min(remaining, room)`, so the loop starts from
`remaining - add`, not `remaining - round2 add`. -/
theorem C3_rounding_policy (W : ℚ) (s : ℚ × List (String × ℚ) × Bool)
    (a : Account) (t : Tier) (pa : Account) (A : ℚ) :
    ((passStep W s a).1 + ((passStep W s a).2.1.map Prod.snd).sum
        = s.1 + (s.2.1.map Prod.snd).sum) ∧
    (prefLookup t = some (some pa) → pa.hasRoomB = true →
      0 < pa.minRoom (qmax 0 A) →
      t.allocate_into_accounts A =
        some ((pa.name, round2 (pa.minRoom (qmax 0 A))) ::
          distLoop t (qmax 0 A - pa.minRoom (qmax 0 A)))) := by
  constructor
  · exact passStep_sum W s a
  · intro hpl hroom hpos
    have hmem : pa ∈ t.accounts := by
      unfold prefLookup at hpl
      split at hpl
      · simp at hpl
      · split_ifs at hpl with he
        · simp at hpl
        · split at hpl
          · simp at hpl
          · rename_i b hf
            simp only [Option.some.injEq] at hpl
            rw [← hpl]
            exact List.mem_of_find?_eq_some hf
    have hne : t.accounts ≠ [] := by
      intro hc; rw [hc] at hmem; exact absurd hmem (List.not_mem_nil pa)
    have hq : ¬ (qmax 0 A ≤ 0 ∨ t.accounts = []) := by
      push_neg
      refine ⟨?_, hne⟩
      have := minRoom_le pa (qmax 0 A)
      linarith
    unfold Tier.allocate_into_accounts
    rw [if_neg hq, hpl]
    simp only [Option.map_some']
    rw [allocFrom_some, if_pos hroom, if_pos hpos]

/-- C3, witness at the counterexample tier: the preferred step of the source
allocator exposes the unrounded residual. -/
theorem C3_witness :
    prefLookup T3cex = some (some pAcct) ∧ pAcct.hasRoomB = true ∧
    (0:ℚ) < pAcct.minRoom (qmax 0 (23/1000)) ∧
    T3cex.allocate_into_accounts (23/1000) =
      some ((pAcct.name, round2 (pAcct.minRoom (qmax 0 (23/1000)))) ::
        distLoop T3cex (qmax 0 (23/1000) - pAcct.minRoom (qmax 0 (23/1000)))) :=
  ⟨by decide, by decide, by decide,
    (C3_rounding_policy 1 (2, [], false) acctSimple T3cex pAcct (23/1000)).2
      (by decide) (by decide) (by decide)⟩

/- ------------------- C6 ------------------- -/

def acct6 : Account :=
  { name := "hy", balance := 10000, apy_pct := 6, notes := "", alloc_weight := 1,
    account_target := none }

def tier6 : Tier :=
  { name := "G", purpose := "", target := 0, priority := 1,
    accounts := [acct6], preferred_account := none }

def plan6 : Plan := { tiers := [tier6], last_updated := "" }

/-- C6: `Account.expected_growth m` equals `B * ((1 + r/1200)^m - 1)` when
balance, yield and months are all positive, and is `0` whenever any of them
is non-positive; `Plan.forecast` maps each tier name to the sum of its
accounts' growths, with no cross-account interaction. -/
theorem C6_growth_formula :
    (∀ (a : Account) (m : ℤ), 0 < a.balance → 0 < a.apy_pct → 0 < m →
       a.expected_growth m = a.balance * ((1 + a.apy_pct/1200) ^ m.toNat - 1)) ∧
    (∀ (a : Account) (m : ℤ), a.balance ≤ 0 ∨ a.apy_pct ≤ 0 ∨ m ≤ 0 →
       a.expected_growth m = 0) ∧
    (∀ (p : Plan) (m : ℤ) (t : Tier), t ∈ p.tiers →
       (t.name, (t.accounts.map (fun a => a.expected_growth m)).sum) ∈ p.forecast m) := by
  refine ⟨?_, ?_, ?_⟩
  · intro a m hb hr hm
    unfold Account.expected_growth
    rw [if_neg (by push_neg; exact ⟨by linarith, by linarith, by linarith⟩)]
    have hd : a.apy_pct / 100 / 12 = a.apy_pct / 1200 := by
      rw [div_div]; norm_num
    rw [hd]
  · intro a m h
    unfold Account.expected_growth
    rw [if_pos (by tauto)]
  · intro p m t ht
    unfold Plan.forecast
    exact List.mem_map.mpr ⟨t, ht, rfl⟩

/-- C6, witness: the spec scenario (balance 10000, yield 6.0, 12 months) and
the zero case, plus the forecast entry for the containing plan. -/
theorem C6_witness :
    ((0:ℚ) < 10000 ∧ (0:ℚ) < 6 ∧ (0:ℤ) < 12 ∧
      acct6.expected_growth 12 = 10000 * ((1 + (6:ℚ)/1200) ^ (12:ℤ).toNat - 1)) ∧
    acctSimple.expected_growth 12 = 0 ∧
    (tier6.name, (tier6.accounts.map (fun a => a.expected_growth 12)).sum) ∈
      plan6.forecast 12 :=
  ⟨⟨by decide, by decide, by decide,
    C6_growth_formula.1 acct6 12 (by decide) (by decide) (by decide)⟩,
   C6_growth_formula.2.1 acctSimple 12 (by decide),
   C6_growth_formula.2.2 plan6 12 tier6 (by decide)⟩

/- ------------------- C7 ------------------- -/

/-- State-passing transcription of the four query methods for the
frame-effect claim.  In the Python bodies of `allocation_plan`,
`allocation_plan_detailed`, `rebalancing_moves` and `forecast` every
assignment targets a local variable (`remaining`, `moves`, `splits`, the
local `over`/`under` lists and their tuple slots, loop indices) — none
assigns to an attribute of `self`, a `Tier` or an `Account` — so the heap
component of each transcription is the incoming `Plan` itself. -/
def Plan.allocation_planS (p : Plan) (new_cash : ℚ) : List (String × ℚ) × Plan :=
  (p.allocation_plan new_cash, p)

def Plan.allocation_plan_detailedS (p : Plan) (new_cash : ℚ) :
    Option (List (String × String × ℚ)) × Plan :=
  (p.allocation_plan_detailed new_cash, p)

def Plan.rebalancing_movesS (p : Plan) : List (String × ℚ) × Plan :=
  (p.rebalancing_moves, p)

def Plan.forecastS (p : Plan) (months : ℤ) : List (String × ℚ) × Plan :=
  (p.forecast months, p)

/-- C7: none of `allocation_plan`, `allocation_plan_detailed`,
`rebalancing_moves`, `forecast` mutates the Plan: after each call every Tier
and Account field (balances, targets, priorities, purposes, weights, caps,
preferred references, order of tiers and accounts, and the date stamp)
equals its value before the call. -/
theorem C7_queries_pure (p : Plan) (new_cash : ℚ) (months : ℤ) :
    (p.allocation_planS new_cash).2 = p ∧
    (p.allocation_plan_detailedS new_cash).2 = p ∧
    p.rebalancing_movesS.2 = p ∧
    (p.forecastS months).2 = p :=
  ⟨rfl, rfl, rfl, rfl⟩

/- ------------------- C10 ------------------- -/

def acctNotes : Account :=
  { name := "n", balance := 1, apy_pct := 2, notes := "old", alloc_weight := 1,
    account_target := none }

def tierNotes : Tier :=
  { name := "N", purpose := "", target := 0, priority := 1,
    accounts := [acctNotes], preferred_account := none }

def tierNoAcc : Tier :=
  { name := "E", purpose := "", target := 0, priority := 1,
    accounts := [], preferred_account := none }

/-- C10, counterexample: two truthiness artifacts refute the "if not None"
reading.  (1) Updating existing account `n` with the supplied (not-None)
notes `""` leaves the old notes in place — Python tests `if notes:`, not
`if notes is not None:`.  (2) Appending a fresh account with supplied
`alloc_weight = 0.0` (not None) stores weight 1.0 — `alloc_weight or 1.0`
treats `0.0` as falsy. -/
theorem C10_counterexample :
    ((tierNotes.add_or_update_account "n" 5 none "" none none).accounts =
      [{ name := "n", balance := 5, apy_pct := 2, notes := "old",
         alloc_weight := 1, account_target := none }] ∧ "old" ≠ "") ∧
    ((tierNoAcc.add_or_update_account "b" 0 none "" (some 0) none).accounts =
      [{ name := "b", balance := 0, apy_pct := 0, notes := "",
         alloc_weight := 1, account_target := none }] ∧ (0:ℚ) ≠ 1) := by decide

theorem updFirst_append (nm : String) (b : ℚ) (apy : Option ℚ) (nts : String)
    (w cap : Option ℚ) :
    ∀ (pre : List Account) (a : Account) (post : List Account),
      (∀ x ∈ pre, x.name ≠ nm) → a.name = nm →
      updFirst (pre ++ a :: post) nm b apy nts w cap =
        some (pre ++ updAccount a b apy nts w cap :: post) := by
  intro pre
  induction pre with
  | nil =>
    intro a post _ ha
    simp only [List.nil_append]
    unfold updFirst
    rw [if_pos ha]
  | cons x pre ih =>
    intro a post hpre ha
    simp only [List.cons_append]
    unfold updFirst
    rw [if_neg (hpre x (List.mem_cons_self x pre))]
    rw [ih a post (fun y hy => hpre y (List.mem_cons_of_mem x hy)) ha]
    rfl

theorem updFirst_none (nm : String) (b : ℚ) (apy : Option ℚ) (nts : String)
    (w cap : Option ℚ) :
    ∀ accs : List Account, (∀ x ∈ accs, x.name ≠ nm) →
      updFirst accs nm b apy nts w cap = none := by
  intro accs
  induction accs with
  | nil => intro _; rfl
  | cons x rest ih =>
    intro hall
    unfold updFirst
    rw [if_neg (hall x (List.mem_cons_self x rest))]
    rw [ih (fun y hy => hall y (List.mem_cons_of_mem x hy))]
    rfl

/-- C10 (amended): `add_or_update_account` updates the *first* account whose
name matches: balance is always set; `apy_pct`, `alloc_weight`,
`account_target` follow "if not None"; `notes` follows Python truthiness (set
exactly when the supplied string is non-empty).  When no name matches, a new
account is appended with `None` defaults apy 0.0, weight 1.0, but — by the
`or` truthiness — a supplied `0.0` for apy or weight also yields the default. -/
theorem C10_upsert (t : Tier) (nm : String) (b : ℚ) (apy : Option ℚ)
    (nts : String) (w cap : Option ℚ) :
    (∀ (pre : List Account) (a : Account) (post : List Account),
       t.accounts = pre ++ a :: post → (∀ x ∈ pre, x.name ≠ nm) → a.name = nm →
       (t.add_or_update_account nm b apy nts w cap).accounts =
         pre ++ { name := a.name, balance := b,
                  apy_pct := apy.getD a.apy_pct,
                  notes := if nts = "" then a.notes else nts,
                  alloc_weight := w.getD a.alloc_weight,
                  account_target :=
                    match cap with
                    | none => a.account_target
                    | some c => some c } :: post) ∧
    ((∀ x ∈ t.accounts, x.name ≠ nm) →
       (t.add_or_update_account nm b apy nts w cap).accounts =
         t.accounts ++
           [{ name := nm, balance := b, apy_pct := apy.getD 0, notes := nts,
              alloc_weight :=
                match w with
                | none => 1
                | some v => if v = 0 then 1 else v,
              account_target := cap }]) := by
  constructor
  · intro pre a post ht hpre ha
    unfold Tier.add_or_update_account
    rw [ht, updFirst_append nm b apy nts w cap pre a post hpre ha]
    rfl
  · intro hall
    unfold Tier.add_or_update_account
    rw [updFirst_none nm b apy nts w cap t.accounts hall]

/-- C10, witness: a concrete update of an existing account (all optional
fields supplied) and a concrete append. -/
theorem C10_witness :
    (tierNotes.add_or_update_account "n" 5 (some 3) "new" none (some 9)).accounts =
      [{ name := "n", balance := 5, apy_pct := 3, notes := "new",
         alloc_weight := 1, account_target := some 9 }] ∧
    (tierNoAcc.add_or_update_account "b" 2 none "" none none).accounts =
      [{ name := "b", balance := 2, apy_pct := 0, notes := "",
         alloc_weight := 1, account_target := none }] :=
  ⟨(C10_upsert tierNotes "n" 5 (some 3) "new" none (some 9)).1 [] acctNotes []
      rfl (fun x hx => absurd hx (List.not_mem_nil x)) rfl,
   (C10_upsert tierNoAcc "b" 2 none "" none none).2
      (fun x hx => absurd hx (List.not_mem_nil x))⟩

/- ------------------- C1 ------------------- -/

theorem qmin_le_left (a b : ℚ) : qmin a b ≤ a := by
  rw [qmin_eq]; exact min_le_left a b

theorem qmin_le_right (a b : ℚ) : qmin a b ≤ b := by
  rw [qmin_eq]; exact min_le_right a b

theorem wfMoves_rem_bounds :
    ∀ (l : List Tier) (r : ℚ), 0 ≤ r → 0 ≤ (wfMoves l r).2 ∧ (wfMoves l r).2 ≤ r := by
  intro l
  induction l with
  | nil => intro r hr; exact ⟨hr, le_refl r⟩
  | cons t ts ih =>
    intro r hr
    unfold wfMoves
    split_ifs with h1 h2 h3
    · exact ⟨hr, le_refl r⟩
    · exact ih r hr
    · simp only
      have hq := qmin_le_left r t.gap
      have hrec := ih (r - qmin r t.gap) (by linarith)
      exact ⟨hrec.1, by linarith [hrec.2]⟩
    · exact ih r hr

theorem wfMoves_sum_le :
    ∀ (l : List Tier) (r : ℚ), 0 ≤ r →
      ((wfMoves l r).1.map Prod.snd).sum
        ≤ (r - (wfMoves l r).2) + ((wfMoves l r).1.length : ℚ) * (1/200) := by
  intro l
  induction l with
  | nil =>
    intro r hr
    simp only [wfMoves, List.map_nil, List.sum_nil, List.length_nil]
    norm_num
  | cons t ts ih =>
    intro r hr
    unfold wfMoves
    split_ifs with h1 h2 h3
    · simp only [List.map_nil, List.sum_nil, List.length_nil]
      norm_num
    · exact ih r hr
    · simp only [List.map_cons, List.sum_cons, List.length_cons]
      have hq := qmin_le_left r t.gap
      have hrec := ih (r - qmin r t.gap) (by linarith)
      have hr2 := round2_le (qmin r t.gap)
      push_cast
      linarith
    · exact ih r hr

theorem wfMoves_entry_bounds :
    ∀ (l : List Tier) (r : ℚ), ∀ m ∈ (wfMoves l r).1,
      ∃ t ∈ l, m.1 = t.name ∧ m.2 ≤ t.gap + 1/200 := by
  intro l
  induction l with
  | nil => intro r m hm; exact absurd hm (by simp [wfMoves])
  | cons t ts ih =>
    intro r m hm
    unfold wfMoves at hm
    split_ifs at hm with h1 h2 h3
    · exact absurd hm (List.not_mem_nil m)
    · rcases ih r m hm with ⟨u, hu, h⟩
      exact ⟨u, List.mem_cons_of_mem t hu, h⟩
    · simp only at hm
      rcases List.mem_cons.mp hm with hme | hme
      · refine ⟨t, List.mem_cons_self t ts, ?_, ?_⟩
        · rw [hme]
        · rw [hme]
          have h4 := round2_le (qmin r t.gap)
          have h5 := qmin_le_right r t.gap
          simp only
          linarith
      · rcases ih (r - qmin r t.gap) m hme with ⟨u, hu, h⟩
        exact ⟨u, List.mem_cons_of_mem t hu, h⟩
    · rcases ih r m hm with ⟨u, hu, h⟩
      exact ⟨u, List.mem_cons_of_mem t hu, h⟩

theorem mem_insertByPriority (x t : Tier) :
    ∀ l : List Tier, x ∈ insertByPriority t l ↔ x = t ∨ x ∈ l := by
  intro l
  induction l with
  | nil => simp [insertByPriority]
  | cons u us ih =>
    unfold insertByPriority
    split_ifs with h
    · rw [List.mem_cons, ih, List.mem_cons]
      tauto
    · simp only [List.mem_cons]

theorem mem_sorted_by_priority (p : Plan) (x : Tier) :
    x ∈ p.sorted_by_priority ↔ x ∈ p.tiers := by
  unfold Plan.sorted_by_priority
  induction p.tiers with
  | nil => simp
  | cons t ts ih =>
    rw [List.foldr_cons, mem_insertByPriority, ih, List.mem_cons]

def tier4g : Tier :=
  { name := "Tier 4", purpose := "", target := 0, priority := 1,
    accounts := [], preferred_account := none }

def plan4g : Plan := { tiers := [tier4g], last_updated := "" }

def tierTinyA : Tier :=
  { name := "A", purpose := "", target := 1, priority := 1,
    accounts := [], preferred_account := none }

def planTiny : Plan := { tiers := [tierTinyA], last_updated := "" }

/-- C1, counterexample: two refutations of the stated bounds.  (1) A plan
whose only tier is named "Tier 4" with target 0: `allocation_plan(100)`
routes the whole leftover there as a move of 100, far above the tier gap 0.
(2) A tier with gap 1 and cash 0.006: the recorded move is round2(0.006) =
0.01, so the sum of the returned amounts exceeds the input amount. -/
theorem C1_counterexample :
    (Plan.allocation_plan plan4g 100 = [("Tier 4", 100)] ∧ tier4g.gap = 0 ∧
      ¬ ((100:ℚ) ≤ 0)) ∧
    (Plan.allocation_plan planTiny (3/500) = [("A", 1/100)] ∧
      ¬ ((([("A", (1:ℚ)/100)]).map Prod.snd).sum ≤ 3/500)) := by decide

/-- C1 (amended): for a non-negative amount `A`, the sum of the amounts
returned by `allocation_plan A` is at most `A` plus 0.005 per returned entry
(2-decimal rounding slack); every entry produced by the gap-filling waterfall
is for a tier of the plan and is at most that tier gap plus 0.005; and any
remaining entries beyond the waterfall form the leftover routed to the growth
tier, carrying `round2` of the remaining cash — an amount *not* bounded by
that tier gap. -/
theorem C1_allocation_plan_bounds (p : Plan) (A : ℚ) (hA : 0 ≤ A) :
    (((p.allocation_plan A).map Prod.snd).sum
        ≤ A + ((p.allocation_plan A).length : ℚ) * (1/200)) ∧
    (∀ m ∈ (wfMoves p.sorted_by_priority A).1,
       ∃ t ∈ p.tiers, m.1 = t.name ∧ m.2 ≤ t.gap + 1/200) ∧
    (∃ extra, p.allocation_plan A = (wfMoves p.sorted_by_priority A).1 ++ extra ∧
       ∀ m ∈ extra, ∃ g, growthOf p = some g ∧
         m = (g.name, round2 (wfMoves p.sorted_by_priority A).2)) := by
  have hq : qmax 0 A = A := by rw [qmax_eq]; exact max_eq_right hA
  refine ⟨?_, ?_, ?_⟩
  · unfold Plan.allocation_plan
    rw [hq]
    have hrem := wfMoves_rem_bounds p.sorted_by_priority A hA
    have hsum := wfMoves_sum_le p.sorted_by_priority A hA
    split_ifs with h1
    · cases hg : growthOf p with
      | none =>
        simp only [List.append_nil]
        have hlen : (0:ℚ) ≤ ((wfMoves p.sorted_by_priority A).1.length : ℚ) := by positivity
        linarith
      | some g =>
        rw [List.map_append, List.sum_append, List.length_append]
        simp only [List.map_cons, List.map_nil, List.sum_cons, List.sum_nil,
          List.length_cons, List.length_nil]
        have hround := round2_le (wfMoves p.sorted_by_priority A).2
        push_cast
        linarith
    · simp only [List.append_nil]
      have hlen : (0:ℚ) ≤ ((wfMoves p.sorted_by_priority A).1.length : ℚ) := by positivity
      linarith
  · intro m hm
    rcases wfMoves_entry_bounds p.sorted_by_priority A m hm with ⟨t, ht, h⟩
    exact ⟨t, (mem_sorted_by_priority p t).mp ht, h⟩
  · unfold Plan.allocation_plan
    rw [hq]
    split_ifs with h1
    · cases hg : growthOf p with
      | none =>
        exact ⟨[], rfl, fun m hm => absurd hm (List.not_mem_nil m)⟩
      | some g =>
        refine ⟨[(g.name, round2 (wfMoves p.sorted_by_priority A).2)], rfl, ?_⟩
        intro m hm
        rcases List.mem_cons.mp hm with hme | hme
        · exact ⟨g, rfl, hme⟩
        · exact absurd hme (List.not_mem_nil m)
    · exact ⟨[], rfl, fun m hm => absurd hm (List.not_mem_nil m)⟩

/-- C1, witness at a concrete plan and amount. -/
theorem C1_witness :
    (0:ℚ) ≤ 3 ∧
    ((((Plan.allocation_plan planTiny 3).map Prod.snd).sum
        ≤ 3 + ((Plan.allocation_plan planTiny 3).length : ℚ) * (1/200)) ∧
     (∀ m ∈ (wfMoves planTiny.sorted_by_priority 3).1,
        ∃ t ∈ planTiny.tiers, m.1 = t.name ∧ m.2 ≤ t.gap + 1/200) ∧
     (∃ extra,
        Plan.allocation_plan planTiny 3 = (wfMoves planTiny.sorted_by_priority 3).1 ++ extra ∧
        ∀ m ∈ extra, ∃ g, growthOf planTiny = some g ∧
          m = (g.name, round2 (wfMoves planTiny.sorted_by_priority 3).2))) :=
  ⟨by decide, C1_allocation_plan_bounds planTiny 3 (by decide)⟩

/- ------------------- C4 ------------------- -/

theorem find?_decomp {α : Type} (q : α → Bool) :
    ∀ (l : List α) (x : α), l.find? q = some x →
      q x = true ∧ ∃ l1 l2, l = l1 ++ x :: l2 ∧ ∀ u ∈ l1, q u = false := by
  intro l
  induction l with
  | nil => intro x hx; exact absurd hx (by simp)
  | cons a rest ih =>
    intro x hx
    rcases hq : q a with _ | _
    · rw [List.find?_cons_of_neg _ (by rw [hq]; exact Bool.false_ne_true)] at hx
      rcases ih x hx with ⟨h1, l1, l2, hl, hall⟩
      refine ⟨h1, a :: l1, l2, by rw [hl, List.cons_append], ?_⟩
      intro u hu
      rcases List.mem_cons.mp hu with rfl | hu2
      · exact hq
      · exact hall u hu2
    · rw [List.find?_cons_of_pos _ hq] at hx
      have hax : a = x := Option.some_injective _ hx
      subst hax
      exact ⟨hq, [], rest, rfl, fun u hu => absurd hu (List.not_mem_nil u)⟩

theorem tierChunk_names (t : Tier) (amt : ℚ) (ms : List (String × String × ℚ))
    (h : tierChunk t amt = some ms) : ∀ e ∈ ms, e.1 = t.name := by
  unfold tierChunk at h
  rcases Option.map_eq_some'.mp h with ⟨splits, _, rfl⟩
  intro e he
  rcases List.mem_map.mp he with ⟨m, _, rfl⟩
  rfl

/-- C4, counterexample: with a single tier named "Tier 4" (gap 0) and cash
0.004, the leftover routed to the growth tier is `round2(0.004) = 0`, so the
*entire* leftover is not assigned (the recorded move is a zero-amount entry). -/
theorem C4_counterexample :
    Plan.allocation_plan plan4g (1/250) = [("Tier 4", 0)] ∧ (0:ℚ) ≠ 1/250 := by
  decide

/-- C4 (amended): for a non-negative amount, if cash remains after the
waterfall then a single extra move carrying `round2` of the leftover (not
necessarily the exact leftover; possibly a zero amount) is appended for the
first tier in priority order whose name contains "Tier 4" or whose purpose
contains "Growth"; in the detailed variant every leftover-phase entry names
that tier; if no tier matches (or no cash remains) there is no extra move. -/
theorem C4_growth_leftover (p : Plan) (A : ℚ) (hA : 0 ≤ A) :
    (0 < (wfMoves p.sorted_by_priority A).2 →
      (∀ t ∈ p.sorted_by_priority, isGrowth t = false) →
      p.allocation_plan A = (wfMoves p.sorted_by_priority A).1) ∧
    (∀ g, 0 < (wfMoves p.sorted_by_priority A).2 → growthOf p = some g →
      p.allocation_plan A = (wfMoves p.sorted_by_priority A).1 ++
          [(g.name, round2 (wfMoves p.sorted_by_priority A).2)] ∧
        isGrowth g = true ∧
        ∃ l1 l2, p.sorted_by_priority = l1 ++ g :: l2 ∧ ∀ u ∈ l1, isGrowth u = false) ∧
    ((wfMoves p.sorted_by_priority A).2 ≤ 0 →
      p.allocation_plan A = (wfMoves p.sorted_by_priority A).1) ∧
    (∀ dwm rem g dm, dwMoves p.sorted_by_priority A = some (dwm, rem) →
      0 < rem → growthOf p = some g →
      p.allocation_plan_detailed A = some dm →
      ∃ gp, dm = dwm ++ gp ∧ ∀ e ∈ gp, e.1 = g.name) := by
  have hq : qmax 0 A = A := by rw [qmax_eq]; exact max_eq_right hA
  refine ⟨?_, ?_, ?_, ?_⟩
  · intro hrem hnone
    have hg : growthOf p = none := by
      unfold growthOf
      rw [List.find?_eq_none]
      intro t ht
      rw [hnone t ht]
      exact Bool.false_ne_true
    unfold Plan.allocation_plan
    rw [hq, if_pos hrem, hg, List.append_nil]
  · intro g hrem hg
    refine ⟨?_, ?_⟩
    · unfold Plan.allocation_plan
      rw [hq, if_pos hrem, hg]
    · have hd := find?_decomp isGrowth p.sorted_by_priority g hg
      exact ⟨hd.1, hd.2⟩
  · intro hrem
    unfold Plan.allocation_plan
    rw [hq, if_neg (by push_neg; exact hrem), List.append_nil]
  · intro dwm rem g dm hdw hrem hg hd
    unfold Plan.allocation_plan_detailed at hd
    rw [hq, hdw] at hd
    simp only at hd
    rw [if_pos hrem, hg] at hd
    have hd2 : Option.map (fun gs => dwm ++ gs) (tierChunk g rem) = some dm := hd
    rcases Option.map_eq_some'.mp hd2 with ⟨gs, hchunk, hgs⟩
    exact ⟨gs, hgs.symm, tierChunk_names g rem gs hchunk⟩

/-- C4, witness: leftover of 5 on the "Tier 4" plan is routed as a tier-level
move of round2(5) = 5, with the first-match decomposition, and the detailed
variant appends only "Tier 4" entries. -/
theorem C4_witness :
    ((0:ℚ) ≤ 5 ∧ (0:ℚ) < (wfMoves plan4g.sorted_by_priority 5).2 ∧
      growthOf plan4g = some tier4g ∧
      dwMoves plan4g.sorted_by_priority 5 = some ([], 5) ∧
      Plan.allocation_plan_detailed plan4g 5 = some []) ∧
    (Plan.allocation_plan plan4g 5 = (wfMoves plan4g.sorted_by_priority 5).1 ++
        [(tier4g.name, round2 (wfMoves plan4g.sorted_by_priority 5).2)] ∧
      isGrowth tier4g = true ∧
      ∃ l1 l2, plan4g.sorted_by_priority = l1 ++ tier4g :: l2 ∧
        ∀ u ∈ l1, isGrowth u = false) ∧
    (∃ gp, ([] : List (String × String × ℚ)) = [] ++ gp ∧
      ∀ e ∈ gp, e.1 = tier4g.name) :=
  ⟨⟨by decide, by decide, by decide, by decide, by decide⟩,
   (C4_growth_leftover plan4g 5 (by decide)).2.1 tier4g (by decide) (by decide),
   (C4_growth_leftover plan4g 5 (by decide)).2.2.2 [] 5 tier4g [] (by decide)
     (by decide) (by decide) (by decide)⟩

/- ------------------- C5 ------------------- -/

/-- Element read `lst[i]` used by the cursor walk (the default is never
reached under the bounds guard). -/
def ovAt (lst : List (String × ℚ)) (i : ℕ) : String × ℚ := lst.getD i ("", 0)

/-- Modelled from the spec (section 4.3): walk the `over`/`under` arrays with
independent cursors `i`, `j`; at each step transfer `round(min(excess,
need), 2)`, write the decremented values back into the arrays
(`over[i] = ...`, `under[j] = ...`), advance the over cursor when its excess
is ≤ 0.005 and the under cursor when its need is ≤ 0.005; stop when either
cursor leaves its array.  Fuel decreases every iteration;
`rebWalk_eq_rebLoop` shows `|over| + |under|` fuel always suffices. -/
def rebWalk : ℕ → List (String × ℚ) → List (String × ℚ) → ℕ → ℕ → List (String × ℚ)
  | 0, _, _, _, _ => []
  | fuel+1, over, under, i, j =>
    if i < over.length then
      if j < under.length then
        rebMv (ovAt over i).1 (ovAt under j).1 (ovAt over i).2 (ovAt under j).2 ++
          rebWalk fuel
            (over.set i ((ovAt over i).1,
              (ovAt over i).2 - rebAmt (ovAt over i).2 (ovAt under j).2))
            (under.set j ((ovAt under j).1,
              (ovAt under j).2 - rebAmt (ovAt over i).2 (ovAt under j).2))
            (if (ovAt over i).2 - rebAmt (ovAt over i).2 (ovAt under j).2 ≤ 1/200
              then i+1 else i)
            (if (ovAt under j).2 - rebAmt (ovAt over i).2 (ovAt under j).2 ≤ 1/200
              then j+1 else j)
      else []
    else []

theorem getD_append_length {α : Type} (l1 : List α) (a : α) (l2 : List α) (d : α) :
    (l1 ++ a :: l2).getD l1.length d = a := by
  induction l1 with
  | nil => rfl
  | cons x xs ih => simpa using ih

theorem set_append_length {α : Type} (l1 : List α) (a b : α) (l2 : List α) :
    (l1 ++ a :: l2).set l1.length b = l1 ++ b :: l2 := by
  induction l1 with
  | nil => rfl
  | cons x xs ih => simp only [List.cons_append, List.length_cons, List.set_cons_succ, ih]

theorem rebWalk_eq_rebLoop :
    ∀ (fuel : ℕ) (ov un pre1 pre2 : List (String × ℚ)),
      ov.length + un.length ≤ fuel →
      rebWalk fuel (pre1 ++ ov) (pre2 ++ un) pre1.length pre2.length = rebLoop ov un := by
  intro fuel
  induction fuel with
  | zero =>
    intro ov un pre1 pre2 hf
    have hov : ov = [] := List.length_eq_zero.mp (by omega)
    have hun : un = [] := List.length_eq_zero.mp (by omega)
    subst hov; subst hun
    simp [rebWalk, rebLoop]
  | succ fuel ih =>
    intro ov un pre1 pre2 hf
    cases ov with
    | nil =>
      unfold rebWalk
      rw [if_neg (by simp)]
      simp [rebLoop]
    | cons o ovs =>
      cases un with
      | nil =>
        unfold rebWalk
        rw [if_pos (by simp), if_neg (by simp)]
        rcases o with ⟨fn, exc⟩
        simp [rebLoop]
      | cons u uns =>
        rcases o with ⟨fn, exc⟩
        rcases u with ⟨tn, need⟩
        simp only [List.length_cons] at hf
        unfold rebWalk ovAt
        rw [if_pos (by simp), if_pos (by simp)]
        rw [getD_append_length, getD_append_length]
        rw [set_append_length, set_append_length]
        rw [rebLoop]
        split_ifs with h1 h2 h3
        · -- both cursors advance
          have e1 : pre1 ++ (fn, exc - rebAmt exc need) :: ovs
              = (pre1 ++ [(fn, exc - rebAmt exc need)]) ++ ovs := by simp
          have e2 : pre1.length + 1 = (pre1 ++ [(fn, exc - rebAmt exc need)]).length := by
            simp
          have e3 : pre2 ++ (tn, need - rebAmt exc need) :: uns
              = (pre2 ++ [(tn, need - rebAmt exc need)]) ++ uns := by simp
          have e4 : pre2.length + 1 = (pre2 ++ [(tn, need - rebAmt exc need)]).length := by
            simp
          rw [e1, e2, e3, e4, ih ovs uns _ _ (by omega)]
        · -- only the over cursor advances
          have e1 : pre1 ++ (fn, exc - rebAmt exc need) :: ovs
              = (pre1 ++ [(fn, exc - rebAmt exc need)]) ++ ovs := by simp
          have e2 : pre1.length + 1 = (pre1 ++ [(fn, exc - rebAmt exc need)]).length := by
            simp
          rw [e1, e2, ih ovs ((tn, need - rebAmt exc need) :: uns) _ _
            (by simp only [List.length_cons]; omega)]
        · -- only the under cursor advances
          have e3 : pre2 ++ (tn, need - rebAmt exc need) :: uns
              = (pre2 ++ [(tn, need - rebAmt exc need)]) ++ uns := by simp
          have e4 : pre2.length + 1 = (pre2 ++ [(tn, need - rebAmt exc need)]).length := by
            simp
          rw [e3, e4, ih ((fn, exc - rebAmt exc need) :: ovs) uns _ _
            (by simp only [List.length_cons]; omega)]
        · -- impossible: neither residual within tolerance
          rcases rebalance_dichotomy exc need with hd | hd
          · exact absurd hd h1
          · exact absurd hd h3

theorem rebLoop_nil_left (un : List (String × ℚ)) : rebLoop [] un = [] := by
  simp [rebLoop]

theorem rebLoop_nil_right (ov : List (String × ℚ)) : rebLoop ov [] = [] := by
  cases ov with
  | nil => simp [rebLoop]
  | cons o ovs => rcases o with ⟨f, e⟩; simp [rebLoop]

/-- C5: `rebalancing_moves` returns exactly the moves of the greedy
two-pointer matching described by the spec — underfunded tiers (gap > 0)
sorted by priority, overfunded tiers (total > target) in plan order, cursors
advanced under the 0.005 tolerance — as computed by the cursor walk
`rebWalk`; and the result is empty whenever no tier is underfunded or no tier
is overfunded. -/
theorem C5_rebalancing (p : Plan) :
    (p.rebalancing_moves =
      rebWalk ((overList p).length + (underList p).length)
        (overList p) (underList p) 0 0) ∧
    ((underList p = [] ∨ overList p = []) → p.rebalancing_moves = []) := by
  have hmain : rebWalk ((overList p).length + (underList p).length)
      (overList p) (underList p) 0 0 = rebLoop (overList p) (underList p) := by
    have h := rebWalk_eq_rebLoop ((overList p).length + (underList p).length)
      (overList p) (underList p) [] [] (le_refl _)
    simpa using h
  constructor
  · unfold Plan.rebalancing_moves
    split_ifs with h
    · rw [hmain]
      rcases h with h | h
      · rw [h]
        exact (rebLoop_nil_right _).symm
      · rw [h]
        exact (rebLoop_nil_left _).symm
    · rw [hmain]
  · intro h
    unfold Plan.rebalancing_moves
    rw [if_pos h]

/-- C5, witness: a plan with an underfunded tier but no overfunded tier
yields no rebalancing moves. -/
theorem C5_witness :
    (underList planTiny = [] ∨ overList planTiny = []) ∧
    Plan.rebalancing_moves planTiny = [] :=
  ⟨by decide, (C5_rebalancing planTiny).2 (by decide)⟩

def planReb : Plan :=
  { tiers := [
      { name := "O", purpose := "", target := 0, priority := 2,
        accounts := [{ name := "c", balance := 30, apy_pct := 0, notes := "",
                       alloc_weight := 1, account_target := none }],
        preferred_account := none },
      { name := "U1", purpose := "", target := 20, priority := 1,
        accounts := [], preferred_account := none },
      { name := "U2", purpose := "", target := 25, priority := 3,
        accounts := [], preferred_account := none }],
    last_updated := "" }

example :
    rebWalk ((overList planReb).length + (underList planReb).length)
      (overList planReb) (underList planReb) 0 0
      = [("O ➜ U1", 20), ("O ➜ U2", 10)] := by decide

/- ------------------- C9 ------------------- -/

/-- The tier-level amount `min(remaining, gap)` the waterfall assigns to a
tier with gap `g` when `remaining = r` (0 when the loop has stopped or the
tier is skipped). -/
def amtOf (r g : ℚ) : ℚ := if r ≤ 0 then 0 else if g ≤ 0 then 0 else qmin r g

/-- The per-tier amounts of the waterfall in tier order, one per tier
(`wfMoves_eq_amts` ties this instrumentation to the source waterfall). -/
def amtsList : List Tier → ℚ → List ℚ
  | [], _ => []
  | t :: ts, r => amtOf r t.gap :: amtsList ts (r - amtOf r t.gap)

/-- Meaning of the claim's phrase gap-was-fully-assigned in the run with cash `A`: the
waterfall amount at the tier's position equals its gap. -/
def fullyAssigned (p : Plan) (A : ℚ) (t : Tier) : Prop :=
  (t, t.gap) ∈ List.zip p.sorted_by_priority (amtsList p.sorted_by_priority (qmax 0 A))

instance (p : Plan) (A : ℚ) (t : Tier) : Decidable (fullyAssigned p A t) := by
  unfold fullyAssigned
  infer_instance

/-- Total amount assigned to the tier named `name` in a detailed move list. -/
def totalTo (name : String) (ms : List (String × String × ℚ)) : ℚ :=
  ((ms.filter (fun e => e.1 == name)).map (fun e => e.2.2)).sum

theorem amtOf_nonneg (r g : ℚ) (h0 : 0 ≤ r) : 0 ≤ amtOf r g := by
  unfold amtOf
  split_ifs with h1 h2
  · exact le_refl 0
  · exact le_refl 0
  · push_neg at h1 h2
    rw [qmin_eq]
    exact le_min h0 (le_of_lt h2)

theorem amtOf_le (r g : ℚ) : amtOf r g ≤ r ∨ amtOf r g = 0 := by
  unfold amtOf
  split_ifs with h1 h2
  · right; rfl
  · right; rfl
  · left; exact qmin_le_left r g

theorem amtOf_zero_of_nonpos_gap (r g : ℚ) (hg : g ≤ 0) : amtOf r g = 0 := by
  unfold amtOf
  by_cases h1 : r ≤ 0
  · rw [if_pos h1]
  · rw [if_neg h1, if_pos hg]

theorem amtOf_full_mono (g : ℚ) {rA rB : ℚ} (_h0 : 0 ≤ rA) (hAB : rA ≤ rB)
    (hfull : amtOf rA g = g) : amtOf rB g = g := by
  by_cases hg : g ≤ 0
  · have hg0 : g = 0 := by
      rw [amtOf_zero_of_nonpos_gap rA g hg] at hfull
      exact hfull.symm
    rw [amtOf_zero_of_nonpos_gap rB g hg, hg0]
  · push_neg at hg
    have hrA : ¬ rA ≤ 0 := by
      intro hc
      unfold amtOf at hfull
      rw [if_pos hc] at hfull
      linarith [hfull]
    unfold amtOf at hfull
    rw [if_neg hrA, if_neg (not_le.mpr hg)] at hfull
    have hge : g ≤ rA := by
      rw [qmin_eq] at hfull
      rcases le_total rA g with h | h
      · rw [min_eq_left h] at hfull
        exact le_of_eq hfull.symm
      · exact h
    have hrB : ¬ rB ≤ 0 := by push_neg at hrA ⊢; linarith
    unfold amtOf
    rw [if_neg hrB, if_neg (not_le.mpr hg), qmin_eq]
    exact min_eq_right (by linarith)

theorem resid_nonneg (g : ℚ) {r : ℚ} (h0 : 0 ≤ r) : 0 ≤ r - amtOf r g := by
  rcases amtOf_le r g with h | h
  · linarith
  · rw [h]; linarith

theorem resid_mono (g : ℚ) {rA rB : ℚ} (h0 : 0 ≤ rA) (hAB : rA ≤ rB) :
    rA - amtOf rA g ≤ rB - amtOf rB g := by
  by_cases hg : g ≤ 0
  · rw [amtOf_zero_of_nonpos_gap rA g hg, amtOf_zero_of_nonpos_gap rB g hg]
    linarith
  · push_neg at hg
    by_cases hrA : rA ≤ 0
    · have hA0 : amtOf rA g = 0 := by unfold amtOf; rw [if_pos hrA]
      rw [hA0]
      have hres : 0 ≤ rB - amtOf rB g := resid_nonneg g (by linarith)
      linarith
    · have hrB : ¬ rB ≤ 0 := by push_neg at hrA ⊢; linarith
      unfold amtOf
      rw [if_neg hrA, if_neg hrB, if_neg (not_le.mpr hg), if_neg (not_le.mpr hg),
        qmin_eq, qmin_eq]
      rcases le_total rA g with h | h
      · rw [min_eq_left h]
        rcases le_total rB g with h6 | h6
        · rw [min_eq_left h6]; linarith
        · rw [min_eq_right h6]; linarith
      · rw [min_eq_right h, min_eq_right (le_trans h hAB)]
        linarith

theorem zip_amts_mono :
    ∀ (l : List Tier) (rA rB : ℚ), 0 ≤ rA → rA ≤ rB →
      ∀ t : Tier, (t, t.gap) ∈ List.zip l (amtsList l rA) →
        (t, t.gap) ∈ List.zip l (amtsList l rB) := by
  intro l
  induction l with
  | nil =>
    intro rA rB h0 hAB t hmem
    simp [amtsList] at hmem
  | cons u us ih =>
    intro rA rB h0 hAB t hmem
    unfold amtsList at hmem ⊢
    rw [List.zip_cons_cons] at hmem ⊢
    rcases List.mem_cons.mp hmem with heq | htail
    · have ht : t = u := congrArg Prod.fst heq
      subst ht
      have hamt : amtOf rA t.gap = t.gap := (congrArg Prod.snd heq).symm
      have hB := amtOf_full_mono t.gap h0 hAB hamt
      rw [hB]
      exact List.mem_cons_self _ _
    · exact List.mem_cons_of_mem _
        (ih (rA - amtOf rA u.gap) (rB - amtOf rB u.gap)
          (resid_nonneg u.gap h0) (resid_mono u.gap h0 hAB) t htail)

theorem amts_zip_zero :
    ∀ (l : List Tier) (r : ℚ), r ≤ 0 →
      ((List.zip l (amtsList l r)).filter (fun x => decide (0 < x.2))) = [] ∧
      (amtsList l r).sum = 0 := by
  intro l
  induction l with
  | nil => intro r _; exact ⟨rfl, rfl⟩
  | cons u us ih =>
    intro r hr
    unfold amtsList
    have h0 : amtOf r u.gap = 0 := by unfold amtOf; rw [if_pos hr]
    rw [h0, sub_zero, List.zip_cons_cons]
    have hrec := ih r hr
    constructor
    · rw [List.filter_cons_of_neg (by simp), hrec.1]
    · rw [List.sum_cons, hrec.2]
      ring

theorem wfMoves_eq_amts :
    ∀ (l : List Tier) (r : ℚ),
      (wfMoves l r).1 =
        ((List.zip l (amtsList l r)).filter (fun x => decide (0 < x.2))).map
          (fun x => (x.1.name, round2 x.2)) ∧
      (wfMoves l r).2 = r - (amtsList l r).sum := by
  intro l
  induction l with
  | nil =>
    intro r
    constructor
    · rfl
    · simp [wfMoves, amtsList]
  | cons t ts ih =>
    intro r
    unfold wfMoves amtsList amtOf
    by_cases h1 : r ≤ 0
    · rw [if_pos h1, if_pos h1]
      have hz := amts_zip_zero ts r h1
      rw [sub_zero, List.zip_cons_cons]
      constructor
      · rw [List.filter_cons_of_neg (by simp), hz.1]
        rfl
      · simp only [List.sum_cons, hz.2]
        ring
    · rw [if_neg h1, if_neg h1]
      by_cases h2 : t.gap ≤ 0
      · rw [if_pos h2, if_pos h2]
        rw [sub_zero, List.zip_cons_cons]
        have hrec := ih r
        constructor
        · rw [List.filter_cons_of_neg (by simp), hrec.1]
        · simp only [List.sum_cons, hrec.2]
          ring
      · rw [if_neg h2, if_neg h2]
        push_neg at h1 h2
        have h3 : 0 < qmin r t.gap := by
          rw [qmin_eq]
          exact lt_min h1 h2
        rw [if_pos h3, List.zip_cons_cons]
        have hrec := ih (r - qmin r t.gap)
        constructor
        · simp only
          rw [List.filter_cons_of_pos (by simp only [decide_eq_true_eq]; exact h3)]
          rw [List.map_cons, hrec.1]
        · simp only [List.sum_cons, hrec.2]
          ring

/-- Per-tier account-level chunks of the detailed waterfall, computed from
the per-tier amounts: each positive amount is split by `tierChunk`, zero
amounts contribute nothing (`dwMoves_eq_chunks` ties this to the source
detailed waterfall). -/
def chunksOf : List Tier → List ℚ → Option (List (String × String × ℚ))
  | [], _ => some []
  | _ :: _, [] => some []
  | t :: ts, a :: rest =>
    if 0 < a then
      match tierChunk t a, chunksOf ts rest with
      | some ms, some more => some (ms ++ more)
      | _, _ => none
    else chunksOf ts rest

theorem chunks_zero :
    ∀ (l : List Tier) (r : ℚ), r ≤ 0 →
      chunksOf l (amtsList l r) = some [] ∧ (amtsList l r).sum = 0 := by
  intro l
  induction l with
  | nil => intro r _; exact ⟨rfl, rfl⟩
  | cons u us ih =>
    intro r hr
    unfold amtsList
    have h0 : amtOf r u.gap = 0 := by unfold amtOf; rw [if_pos hr]
    rw [h0, sub_zero]
    have hrec := ih r hr
    constructor
    · unfold chunksOf
      rw [if_neg (by norm_num)]
      exact hrec.1
    · rw [List.sum_cons, hrec.2]
      ring

theorem dwMoves_cons (t : Tier) (ts : List Tier) (rem : ℚ) :
    dwMoves (t :: ts) rem =
      if rem ≤ 0 then some ([], rem)
      else if t.gap ≤ 0 then dwMoves ts rem
      else
        if 0 < qmin rem t.gap then
          match tierChunk t (qmin rem t.gap), dwMoves ts (rem - qmin rem t.gap) with
          | some ms, some (rest, rem2) => some (ms ++ rest, rem2)
          | _, _ => none
        else dwMoves ts rem := rfl

set_option maxHeartbeats 800000 in
theorem dwMoves_eq_chunks :
    ∀ (l : List Tier) (r : ℚ),
      dwMoves l r =
        (chunksOf l (amtsList l r)).map (fun ms => (ms, r - (amtsList l r).sum)) := by
  intro l
  induction l with
  | nil =>
    intro r
    have h1 : amtsList [] r = [] := rfl
    have h2 : chunksOf [] [] = some [] := rfl
    have h3 : dwMoves [] r = some ([], r) := rfl
    rw [h1, h2, h3]
    simp only [Option.map_some', List.sum_nil, sub_zero]
  | cons t ts ih =>
    intro r
    rw [dwMoves_cons]
    unfold amtsList
    unfold amtOf
    by_cases h1 : r ≤ 0
    · rw [if_pos h1, if_pos h1]
      have hz := chunks_zero ts r h1
      rw [sub_zero]
      unfold chunksOf
      rw [if_neg (lt_irrefl 0), hz.1]
      simp only [Option.map_some', List.sum_cons, hz.2, add_zero, sub_zero]
    · rw [if_neg h1, if_neg h1]
      by_cases h2 : t.gap ≤ 0
      · rw [if_pos h2, if_pos h2, sub_zero]
        unfold chunksOf
        rw [if_neg (lt_irrefl 0)]
        simp only [List.sum_cons, zero_add]
        exact ih r
      · rw [if_neg h2, if_neg h2]
        push_neg at h1 h2
        have h3 : 0 < qmin r t.gap := by
          rw [qmin_eq]
          exact lt_min h1 h2
        rw [if_pos h3]
        unfold chunksOf
        rw [if_pos h3]
        rw [ih (r - qmin r t.gap)]
        have harith : r - qmin r t.gap - (amtsList ts (r - qmin r t.gap)).sum
            = r - (qmin r t.gap + (amtsList ts (r - qmin r t.gap)).sum) := by ring
        generalize tierChunk t (qmin r t.gap) = o1
        generalize chunksOf ts (amtsList ts (r - qmin r t.gap)) = o2
        cases o1 with
        | none => cases o2 <;> rfl
        | some ms =>
          cases o2 with
          | none => rfl
          | some more =>
            simp only [Option.map_some', List.sum_cons]
            rw [harith]

def a1Cap : Account :=
  { name := "a1", balance := 0, apy_pct := 0, notes := "", alloc_weight := 3,
    account_target := some (1/250) }

def a2Free : Account :=
  { name := "a2", balance := 0, apy_pct := 0, notes := "", alloc_weight := 1,
    account_target := none }

def G9 : Tier :=
  { name := "Tier 4", purpose := "", target := 1/100, priority := 1,
    accounts := [a1Cap, a2Free], preferred_account := none }

def P9 : Plan := { tiers := [G9], last_updated := "" }

/-- C9, counterexample: tier "Tier 4" (gap 0.01, accounts: a1 capped at 0.004
with weight 3, a2 uncapped with weight 1) is fully assigned at A = 0.0299 and
at B = 0.039 ≥ A, yet its total assigned amount *drops* from 0.03 to 0.02:
at A the growth-leftover 0.0199 defeats the weighted loop (every rounded
share is 0.00) and the first-account fallback dumps round2(0.0199) = 0.02
into a1, while at B the larger leftover 0.029 gives a2 a single rounded
share of 0.01 and the loop then stalls — so a larger input assigns less. -/
theorem C9_counterexample :
    (0:ℚ) ≤ 299/10000 ∧ (299/10000 : ℚ) ≤ 39/1000 ∧
    fullyAssigned P9 (299/10000) G9 ∧ 0 < G9.gap ∧
    Plan.allocation_plan_detailed P9 (299/10000)
      = some [("Tier 4", "a1", 1/100), ("Tier 4", "a1", 1/50)] ∧
    Plan.allocation_plan_detailed P9 (39/1000)
      = some [("Tier 4", "a1", 1/100), ("Tier 4", "a2", 1/100)] ∧
    totalTo "Tier 4" [("Tier 4", "a1", 1/100), ("Tier 4", "a2", 1/100)]
      < totalTo "Tier 4" [("Tier 4", "a1", 1/100), ("Tier 4", "a1", 1/50)] := by
  decide

/-- C9 (amended): the waterfall itself is monotone.  The detailed waterfall
is exactly the per-tier `tierChunk` splits taken at the per-tier amounts
`amtsList` (first conjunct), the tier-level waterfall records the rounded
positive amounts of the same list (second conjunct), and a tier whose gap was
fully assigned at amount `A` is still fully assigned — receives exactly its
gap, hence the same waterfall-phase account splits — at any `B ≥ A` (third
conjunct).  The original claim fails only through the growth-leftover phase,
whose intra-tier split is not monotone in the leftover. -/
theorem C9_waterfall_monotone (p : Plan) (A B : ℚ) (t : Tier)
    (_hA : 0 ≤ A) (hAB : A ≤ B) :
    (dwMoves p.sorted_by_priority (qmax 0 A) =
      (chunksOf p.sorted_by_priority (amtsList p.sorted_by_priority (qmax 0 A))).map
        (fun ms => (ms, qmax 0 A - (amtsList p.sorted_by_priority (qmax 0 A)).sum))) ∧
    ((wfMoves p.sorted_by_priority (qmax 0 A)).1 =
      ((List.zip p.sorted_by_priority (amtsList p.sorted_by_priority (qmax 0 A))).filter
        (fun x => decide (0 < x.2))).map (fun x => (x.1.name, round2 x.2))) ∧
    (fullyAssigned p A t → fullyAssigned p B t) := by
  refine ⟨?_, ?_, ?_⟩
  · exact dwMoves_eq_chunks p.sorted_by_priority (qmax 0 A)
  · exact (wfMoves_eq_amts p.sorted_by_priority (qmax 0 A)).1
  · intro hfull
    unfold fullyAssigned at hfull ⊢
    have h0 : (0:ℚ) ≤ qmax 0 A := by rw [qmax_eq]; exact le_max_left 0 A
    have hq : qmax 0 A ≤ qmax 0 B := by
      rw [qmax_eq, qmax_eq]
      exact max_le_max (le_refl 0) hAB
    exact zip_amts_mono p.sorted_by_priority (qmax 0 A) (qmax 0 B) h0 hq t hfull

/-- C9, witness: a fully assigned tier stays fully assigned when the cash
grows from 1 to 2. -/
theorem C9_witness :
    (0:ℚ) ≤ 1 ∧ (1:ℚ) ≤ 2 ∧ fullyAssigned planTiny 1 tierTinyA ∧
    fullyAssigned planTiny 2 tierTinyA :=
  ⟨by decide, by decide, by decide,
   (C9_waterfall_monotone planTiny 1 2 tierTinyA (by decide) (by decide)).2.2 (by decide)⟩
